import Mathlib

/-!
Verification of the gpm package-manager core (Go sources: package_manager.go,
lockfile.go, parallel.go, upgrader.go) against its natural-language
specification.  Go strings are modelled as Lean `String`s (a Go rune is a
`Char`); Go maps are modelled as association lists; Go slices as `List`.
Go's `int` is modelled as `Int` with the 64-bit parse-overflow failure of
`strconv.Atoi` / `fmt.Sscanf` made explicit where the code can hit it.
-/

namespace Gpm

/-! ## Character and string primitives (models of the Go standard library
functions the repository calls) -/

/-- Model of the byte/rune test used by `strings.TrimSpace` and the `fmt`
scanner: Go's `unicode.IsSpace` on the Latin-1 range (space, tab, newline,
vertical tab, form feed, carriage return, NEL, NBSP).  Higher Unicode space
code points are not modelled; no caller in this repository feeds them. -/
def isGoSpace (c : Char) : Bool :=
  c = ' ' || c = '\t' || c = '\n' || c = (Char.ofNat 11) || c = (Char.ofNat 12) ||
  c = '\r' || c = (Char.ofNat 133) || c = (Char.ofNat 160)

/-- Go's decimal-digit test (`'0' <= c && c <= '9'`), as used by
`strconv.Atoi` and the `%d` verb of `fmt.Sscanf`. -/
def isDigitC (c : Char) : Bool :=
  48 ≤ c.toNat && c.toNat ≤ 57

/-- `strings.TrimSpace`: drop leading and trailing white space. -/
def goTrimSpace (s : String) : String :=
  String.mk (((s.toList.dropWhile isGoSpace).reverse.dropWhile isGoSpace).reverse)

/-- `strings.HasPrefix s pre`. -/
def goHasPre (s pre : String) : Bool :=
  pre.toList.isPrefixOf s.toList

/-- `strings.TrimPrefix s pre`: drop `pre` from the front of `s` when it is
there, otherwise return `s` unchanged. -/
def goTrimPre (s pre : String) : String :=
  if goHasPre s pre then String.mk (s.toList.drop pre.toList.length) else s

/-- `strings.TrimSuffix s suf`. -/
def goTrimSuffix (s suf : String) : String :=
  if suf.toList.isSuffixOf s.toList then
    String.mk (s.toList.take (s.toList.length - suf.toList.length))
  else s

/-- `strings.Contains s sub` for a non-empty needle: does `sub` occur as a
contiguous substring of `s`?  (The repository only ever asks about the
needles "x", "||", "^" and "~".) -/
def containsSub (needle : List Char) (hay : List Char) : Bool :=
  match hay with
  | [] => needle.isPrefixOf []
  | c :: cs => needle.isPrefixOf (c :: cs) || containsSub needle cs

/-- `strings.Contains`. -/
def goContains (s sub : String) : Bool :=
  containsSub sub.toList s.toList

/-- `strings.Split s (String.mk [c])` for a single-character separator,
via `List.splitOn`. -/
def splitCh (c : Char) (s : String) : List String :=
  (s.toList.splitOn c).map (fun l => String.mk l)

/-- `strings.Split s "||"`: scan left to right, cutting at each (leftmost,
non-overlapping) occurrence of the two-character separator `||`. -/
def splitBars : List Char → List (List Char)
  | [] => [[]]
  | '|' :: '|' :: rest => [] :: splitBars rest
  | c :: rest =>
    match splitBars rest with
    | [] => [[c]]
    | h :: t => (c :: h) :: t

/-- `strings.Split` on the separator `"||"`, at the `String` level. -/
def goSplitBars (s : String) : List String :=
  (splitBars s.toList).map (fun l => String.mk l)

/-- `strings.Join parts sep`. -/
def joinStrs (sep : String) : List String → String
  | [] => ""
  | [p] => p
  | p :: rest => p ++ sep ++ joinStrs sep rest

/-- `strings.ReplaceAll s (String.mk [c]) ""`: remove every occurrence of the
single character `c` (the repository only replaces `"x"` by `""`). -/
def removeCh (c : Char) (s : String) : String :=
  String.mk (s.toList.filter (fun a => !(a == c)))

/-- Association-list model of a Go map: first binding of a key wins
(bindings are kept unique by `updateA`). -/
def lookupA {κ α : Type} [BEq κ] (l : List (κ × α)) (k : κ) : Option α :=
  match l with
  | [] => none
  | (k', v) :: rest => if k' == k then some v else lookupA rest k

/-- Association-list model of Go map assignment `m[k] = v`. -/
def updateA {κ α : Type} [BEq κ] (l : List (κ × α)) (k : κ) (v : α) : List (κ × α) :=
  match l with
  | [] => [(k, v)]
  | (k', v') :: rest => if k' == k then (k, v) :: rest else (k', v') :: updateA rest k v

/-! ## The two version comparators

`package_manager.go` (method `compareVersions`, lines 429-455) parses each
dot-separated component with `fmt.Sscanf(part, "%d", &p)` and leaves `p = 0`
when the scan fails; `upgrader.go` (function `compareVersions`,
lines 160-197) truncates each component at the first `-` or `+` and then
applies `strconv.Atoi`, taking `0` on error.  Both walk the components in
lock step, treating a missing component as `0`. -/

/-- Numeric value of a digit string (most significant digit first). -/
def digitsToNat (l : List Char) : Nat :=
  l.foldl (fun a c => a * 10 + (c.toNat - 48)) 0

/-- Digit-run part of `sscanfInt`. -/
def sscanfIntDigits (neg : Bool) (l : List Char) : Int :=
  let ds := l.takeWhile isDigitC
  if ds.isEmpty then 0
  else
    let n := digitsToNat ds
    if neg then (if n ≤ 9223372036854775808 then -(n : Int) else 0)
    else (if n ≤ 9223372036854775807 then (n : Int) else 0)

/-- `fmt.Sscanf(s, "%d", &p)` with `p` initialised to `0`: skip leading
white space, read an optional sign and then a maximal run of decimal digits;
any failure (no digits, or 64-bit overflow, which makes the scan error and
leaves `p` untouched) yields `0`. -/
def sscanfInt (s : String) : Int :=
  match s.toList.dropWhile isGoSpace with
  | '+' :: rest => sscanfIntDigits false rest
  | '-' :: rest => sscanfIntDigits true rest
  | l => sscanfIntDigits false l

/-- Digit part of `goAtoi`. -/
def goAtoiDigits (neg : Bool) (l : List Char) : Option Int :=
  if l.isEmpty then none
  else if l.all isDigitC then
    let n := digitsToNat l
    if neg then (if n ≤ 9223372036854775808 then some (-(n : Int)) else none)
    else (if n ≤ 9223372036854775807 then some (n : Int) else none)
  else none

/-- `strconv.Atoi`: optional sign followed by a non-empty all-digit string;
`none` on any other input and on 64-bit overflow. -/
def goAtoi (s : String) : Option Int :=
  match s.toList with
  | '+' :: rest => goAtoiDigits false rest
  | '-' :: rest => goAtoiDigits true rest
  | l => goAtoiDigits false l

/-- `upgrader.go` `parseVersionPart`: truncate at the first `-`, then at the
first `+`, then `strconv.Atoi`, with `0` on error. -/
def parseVersionPart (part : String) : Int :=
  match goAtoi ((splitCh '+' ((splitCh '-' part).headD "")).headD "") with
  | some n => n
  | none => 0

/-- Remaining component-walk once the left version has run out of
components: each left entry is `0`. -/
def cmpZeros : List Int → Int
  | [] => 0
  | y :: ys => if (0 : Int) > y then 1 else if (0 : Int) < y then -1 else cmpZeros ys

/-- The shared component-walk of both Go `compareVersions` loops: compare the
two integer lists position by position, treating a missing entry as `0`;
return `1`/`-1` at the first difference and `0` when none is found. -/
def cmpPadded : List Int → List Int → Int
  | [], ys => cmpZeros ys
  | x :: xs, [] => if x > 0 then 1 else if x < 0 then -1 else cmpPadded xs []
  | x :: xs, y :: ys => if x > y then 1 else if x < y then -1 else cmpPadded xs ys

/-- `PackageManager.compareVersions` (package_manager.go:429-455). -/
def pmCompareVersions (v1 v2 : String) : Int :=
  cmpPadded ((splitCh '.' v1).map sscanfInt) ((splitCh '.' v2).map sscanfInt)

/-- Top-level `compareVersions` (upgrader.go:160-187). -/
def upCompareVersions (v1 v2 : String) : Int :=
  cmpPadded ((splitCh '.' v1).map parseVersionPart) ((splitCh '.' v2).map parseVersionPart)

/-! ## Version-range resolution (package_manager.go:353-427)

The registry's `Versions map[string]PackageInfo` is modelled by the list of
its keys, in the order Go's map iteration happens to visit them (the code's
result can depend on that order only between versions that compare equal). -/

/-- One step of the selection loop of `resolveSingleVersion`: a matching
candidate replaces the running best when the best is still empty or the
candidate compares strictly greater (`bestVersion == "" ||
compareVersions(v, bestVersion) > 0`). -/
def bestByStep (p : String → Bool) (best v : String) : String :=
  if p v then (if best = "" ∨ pmCompareVersions v best > 0 then v else best)
  else best

/-- The shared selection loop of `resolveSingleVersion`: iterate over the
available versions starting from the empty best. -/
def bestBy (avail : List String) (p : String → Bool) : String :=
  avail.foldl (bestByStep p) ""

/-- `resolveSingleVersion` (package_manager.go:369-427): trim the range, then
try in order the `x`-wildcard rule, the caret rule, the tilde rule and exact
lookup, returning `""` when nothing applies. -/
def resolveSingleVersion (version0 : String) (avail : List String) : String :=
  let version := goTrimSpace version0
  if goContains version "x" then
    let pattern := goTrimSuffix (removeCh 'x' version) "."
    bestBy avail (fun v => goHasPre v pattern)
  else if goHasPre version "^" && decide (1 ≤ (splitCh '.' (goTrimPre version "^")).length) then
    let majorVersion := (splitCh '.' (goTrimPre version "^")).headD ""
    bestBy avail (fun v =>
      decide (1 ≤ (splitCh '.' v).length) && ((splitCh '.' v).headD "" == majorVersion))
  else if goHasPre version "~" && decide (2 ≤ (splitCh '.' (goTrimPre version "~")).length) then
    let parts := splitCh '.' (goTrimPre version "~")
    let majorMinor := parts.headD "" ++ "." ++ parts.tail.headD ""
    bestBy avail (fun v => goHasPre v (majorMinor ++ "."))
  else if avail.contains version then version
  else ""

/-- The `||` loop of `resolveVersionRange`: trim each alternative and return
the first one that resolves, `""` when none does. -/
def resolveParts : List String → List String → String
  | [], _ => ""
  | part :: rest, avail =>
    let resolved := resolveSingleVersion (goTrimSpace part) avail
    if resolved ≠ "" then resolved else resolveParts rest avail

/-- `resolveVersionRange` (package_manager.go:353-367). -/
def resolveVersionRange (versionRange : String) (avail : List String) : String :=
  if goContains versionRange "||" then resolveParts (goSplitBars versionRange) avail
  else resolveSingleVersion versionRange avail

/-! ## Registry response and `getPackageInfo` version resolution
(package_manager.go:92-144)

Only the part of `getPackageInfo` after a successful fetch and JSON decode is
modelled: how the requested range is turned into a concrete version, and
which requests end in an error.  The Go error strings interpolate the package
name and version; the models keep the fixed message text only. -/

deriving instance DecidableEq for Except

structure RegistryResponse where
  /-- Keys of the `versions` map of the registry document. -/
  versions : List String
  /-- The `dist-tags` table. -/
  distTags : List (String × String)
deriving DecidableEq

/-- The version-resolution tail of `getPackageInfo` (package_manager.go:118-143),
returning the key finally looked up in `Versions` on success. -/
def getPackageInfoVersion (version : String) (resp : RegistryResponse) : Except String String :=
  let resolved : Except String String :=
    if version == "latest" then
      match lookupA resp.distTags "latest" with
      | some latestVersion => .ok latestVersion
      | none => .error "no latest version found"
    else if goContains version "x" || goContains version "||" ||
        goContains version "^" || goContains version "~" then
      let resolvedVersion := resolveVersionRange version resp.versions
      if resolvedVersion == "" then
        match lookupA resp.distTags "latest" with
        | some latestVersion => .ok latestVersion
        | none => .error "could not resolve version range"
      else .ok resolvedVersion
    else .ok version
  match resolved with
  | .error e => .error e
  | .ok v => if resp.versions.contains v then .ok v else .error "version not found"

/-! ## Lexical path handling (`path/filepath` on a Unix separator)

`extractAndCache` relies on `filepath.Clean`, `filepath.Join` and
`filepath.Dir`; `os.PathSeparator` is `'/'`. -/

/-- The element stack of `filepath.Clean`: walk the `/`-separated segments,
dropping empty and `.` segments, resolving `..` against the stack (at the
root, `..` disappears; in a relative path it accumulates).  `acc` holds the
output segments in reverse. -/
def cleanAcc (rooted : Bool) : List String → List String → List String
  | acc, [] => acc.reverse
  | acc, seg :: rest =>
    if seg = "" || seg = "." then cleanAcc rooted acc rest
    else if seg = ".." then
      match acc with
      | [] => if rooted then cleanAcc rooted [] rest else cleanAcc rooted [".."] rest
      | a :: as =>
        if a = ".." then cleanAcc rooted (".." :: a :: as) rest
        else cleanAcc rooted as rest
    else cleanAcc rooted (seg :: acc) rest

/-- `filepath.Clean` for Unix paths. -/
def goClean (p : String) : String :=
  if p = "" then "."
  else
    let rooted := p.toList.headD ' ' == '/'
    let out := cleanAcc rooted [] (splitCh '/' p)
    if rooted then "/" ++ joinStrs "/" out
    else if out.isEmpty then "." else joinStrs "/" out

/-- `filepath.Join` of two elements: drop empty elements, join with `/`,
then `Clean`; `""` when both are empty. -/
def goJoin (a b : String) : String :=
  if a = "" && b = "" then ""
  else if a = "" then goClean b
  else if b = "" then goClean a
  else goClean (a ++ "/" ++ b)

/-- `filepath.Dir`: everything up to the final `/`, cleaned; `"."` when
there is no `/`. -/
def goDir (p : String) : String :=
  let segs := splitCh '/' p
  if segs.length ≤ 1 then goClean ""
  else goClean (joinStrs "/" segs.dropLast ++ "/")

/-! ## Streaming extraction (`extractAndCache`, package_manager.go:214-287)

A tar entry is its header name and type flag (`TypeDir`, `TypeReg`, or any
other flag, which the `switch` ignores).  The filesystem effect of the loop
is recorded as the list of directory creations and file writes it performs,
in order; file contents flow from the stream and play no role in the path
check. -/

inductive TarType where
  | dir
  | reg
  | other
deriving DecidableEq

structure TarEntry where
  name : String
  typeflag : TarType
deriving DecidableEq

inductive FsAction where
  /-- `os.MkdirAll path mode` -/
  | mkdirAll (path : String)
  /-- `os.OpenFile path O_CREATE|O_WRONLY|O_TRUNC` followed by the stream copy -/
  | writeFile (path : String)
deriving DecidableEq

/-- One iteration of the `extractAndCache` loop body for a single tar entry:
strip the leading `package/` segment, skip the entry when the prefix was
absent or nothing remains, skip it when the cleaned target escapes the
cleaned destination root, and otherwise create/write into both the
destination tree and the cache tree. -/
def entryActions (destPath cachePath : String) (e : TarEntry) : List FsAction :=
  let path := goTrimPre e.name "package/"
  if path = "" ∨ path = e.name then []
  else
    let target := goJoin destPath path
    let cacheTarget := goJoin cachePath path
    let cleanDest := goClean destPath
    let cleanTarget := goClean target
    if !goHasPre cleanTarget (cleanDest ++ "/") && !(cleanTarget == cleanDest) then []
    else
      match e.typeflag with
      | .dir => [.mkdirAll target, .mkdirAll cacheTarget]
      | .reg => [.mkdirAll (goDir target), .mkdirAll (goDir cacheTarget),
                 .writeFile target, .writeFile cacheTarget]
      | .other => []

/-- The whole `extractAndCache` loop over the archive's entries, as the
ordered list of filesystem actions it performs (after the initial
`os.RemoveAll` of the two roots, which touches nothing outside them). -/
def extractAndCache (destPath cachePath : String) (entries : List TarEntry) : List FsAction :=
  entries.foldr (fun e acc => entryActions destPath cachePath e ++ acc) []

/-- An entry whose resolved target (leading `package/` segment stripped,
joined to the destination root, cleaned) fails the strict prefix check
against the cleaned destination root. -/
def entryEscapes (destPath : String) (e : TarEntry) : Bool :=
  let path := goTrimPre e.name "package/"
  let cleanDest := goClean destPath
  let cleanTarget := goClean (goJoin destPath path)
  !goHasPre cleanTarget (cleanDest ++ "/") && !(cleanTarget == cleanDest)

/-! ## Cache directory naming (lockfile.go:355-359 and 484-513)

`getPackagePath` places a package at `<cacheDir>/<name>-<version>-<hash12>`
where `hash12` is the first 12 hex characters of the SHA-256 digest of
`name@version`.  The digest computation is abstracted as the `hash` argument;
everything proved about it assumes only what is true of a hex digest (it
contains no `-`).  `listPackages` parses such a base name back. -/

/-- The base directory name built by `Cache.getPackagePath`
(`fmt.Sprintf("%s-%s-%s", name, version, hashStr)`). -/
def cacheDirName (name version hash : String) : String :=
  name ++ "-" ++ version ++ "-" ++ hash

/-- The parsing step of `Cache.listPackages` on one top-level directory base
name: split on `-`; with at least 3 parts, the next-to-last part is the
version and the rest (re-joined with `-`) the name; otherwise the directory
is skipped. -/
def parseCacheDirName (dirName : String) : Option (String × String) :=
  let parts := splitCh '-' dirName
  if 3 ≤ parts.length then
    some (joinStrs "-" (parts.dropLast.dropLast), parts.dropLast.getLastD "")
  else none

/-! ## The lock structure (lockfile.go:14-66, 68-84, 164-182)

`LockFile.mu` is not part of the data.  The YAML layer is modelled at the
document level: `yaml.Marshal` produces a structured node tree (with the
struct tags and `omitempty` behaviour of the Go types) and `yaml.Unmarshal`
reads one back; the rendering of a tree to bytes and its re-parsing is the
yaml.v3 library's own round trip and is outside the repository.  Go maps
appear as association lists. -/

structure LockPackage where
  name : String
  version : String
  resolved : String
  integrity : String
  dependencies : List (String × String)
  devDep : Bool
deriving DecidableEq

structure LockFile where
  version : String
  createdAt : Nat
  packages : List (String × LockPackage)
  specifiers : List (String × String)
  devPackages : List (String × String)
deriving DecidableEq

/-- A YAML document node. -/
inductive YNode where
  | str (s : String)
  | bool (b : Bool)
  | time (t : Nat)
  | map (kvs : List (String × YNode))

/-- `yaml.Marshal` of a `LockPackage` with its struct tags: `name`,
`version`, `resolved` always; `integrity`, `dependencies` and `dev` carry
`omitempty` and are dropped at their zero values. -/
def marshalLockPackage (p : LockPackage) : YNode :=
  .map ([("name", .str p.name), ("version", .str p.version), ("resolved", .str p.resolved)]
    ++ (if p.integrity = "" then [] else [("integrity", .str p.integrity)])
    ++ (if p.dependencies = [] then []
        else [("dependencies", .map (p.dependencies.map (fun kv => (kv.1, .str kv.2))))])
    ++ (if p.devDep = false then [] else [("dev", .bool p.devDep)]))

def yGetStr (kvs : List (String × YNode)) (k : String) : String :=
  match lookupA kvs k with
  | some (.str s) => s
  | _ => ""

def yGetTime (kvs : List (String × YNode)) (k : String) : Nat :=
  match lookupA kvs k with
  | some (.time t) => t
  | _ => 0

def yGetBool (kvs : List (String × YNode)) (k : String) : Bool :=
  match lookupA kvs k with
  | some (.bool b) => b
  | _ => false

def yGetMap (kvs : List (String × YNode)) (k : String) : List (String × YNode) :=
  match lookupA kvs k with
  | some (.map m) => m
  | _ => []

/-- Decode a `map[string]string` field (absent field decodes to the empty
map; a run of this model only ever meets string values there). -/
def yGetStrMap (kvs : List (String × YNode)) (k : String) : List (String × String) :=
  (yGetMap kvs k).map (fun kv => (kv.1, match kv.2 with | .str s => s | _ => ""))

/-- `yaml.Unmarshal` into a `LockPackage`: absent fields keep their zero
values. -/
def unmarshalLockPackage (n : YNode) : LockPackage :=
  match n with
  | .map kvs =>
    { name := yGetStr kvs "name"
      version := yGetStr kvs "version"
      resolved := yGetStr kvs "resolved"
      integrity := yGetStr kvs "integrity"
      dependencies := yGetStrMap kvs "dependencies"
      devDep := yGetBool kvs "dev" }
  | _ => { name := "", version := "", resolved := "", integrity := "", dependencies := [], devDep := false }

/-- `saveLockFile` (lockfile.go:68-84): stamp `CreatedAt` with the current
time, then marshal the whole structure (`DevPackages` carries `omitempty`). -/
def saveLockFile (lf : LockFile) (now : Nat) : YNode :=
  .map ([("lockfileVersion", .str lf.version), ("createdAt", .time now),
    ("packages", .map (lf.packages.map (fun kv => (kv.1, marshalLockPackage kv.2)))),
    ("specifiers", .map (lf.specifiers.map (fun kv => (kv.1, .str kv.2))))]
    ++ (if lf.devPackages = [] then []
        else [("devPackages", .map (lf.devPackages.map (fun kv => (kv.1, .str kv.2))))]))

/-- `loadLockFile` (lockfile.go:34-66) on an existing lock document:
unmarshal, then replace each `nil` top-level map by an empty one (in the
association-list model an absent field already decodes to `[]`, so that
normalisation is the identity here). -/
def loadLockFile (n : YNode) : LockFile :=
  match n with
  | .map kvs =>
    { version := yGetStr kvs "lockfileVersion"
      createdAt := yGetTime kvs "createdAt"
      packages := (yGetMap kvs "packages").map (fun kv => (kv.1, unmarshalLockPackage kv.2))
      specifiers := yGetStrMap kvs "specifiers"
      devPackages := yGetStrMap kvs "devPackages" }
  | _ => { version := "", createdAt := 0, packages := [], specifiers := [], devPackages := [] }

/-- `removePackage` (lockfile.go:164-182): collect every `Packages` key whose
entry's `Name` equals the given name and delete those keys (with unique map
keys this keeps exactly the entries of other names), then delete the name's
`Specifiers` and `DevPackages` rows. -/
def removePackage (lf : LockFile) (name : String) : LockFile :=
  { lf with
    packages := lf.packages.filter (fun kv => !(kv.2.name == name))
    specifiers := lf.specifiers.filter (fun kv => !(kv.1 == name))
    devPackages := lf.devPackages.filter (fun kv => !(kv.1 == name)) }

/-! ## The install pipeline (`Install`, package_manager.go:50-86)

`Install` is modelled as a function from a registry (fixed for the run) and
the relevant filesystem state to the new state plus its outcome.  A package's
materialised tree is abstracted as `PkgTree`: its files plus the `version`
field its `package.json` declares (`isPackageInstalled` reads exactly that
field; `none` models a missing or unparsable `package.json`).  `downloads`
counts tarball transfers (`downloadAndExtract` fetches).  The initial
`ensureNodeModulesDir` (a `MkdirAll` of the destination root) and the
spinner/progress output are display/plumbing and are not part of the
state. -/

structure PkgTree where
  files : List (String × String)
  pkgJsonVersion : Option String
deriving DecidableEq

structure Registry where
  /-- `getPackageInfo`'s fetch of `registryURL/name`: `none` models any
  fetch, status or decode failure. -/
  meta : String → Option RegistryResponse
  /-- Fetching `Dist.Tarball` for `name@version`, already extracted: the
  tree that `extractAndCache` materialises (identically) into the
  destination and the cache.  `none` models a failed download. -/
  tarball : String → String → Option PkgTree

structure Sys where
  /-- `node_modules/<name>` trees, keyed by package name. -/
  nodeModules : List (String × PkgTree)
  /-- Cache trees keyed by (name, version). -/
  cache : List ((String × String) × PkgTree)
deriving DecidableEq

structure InstallOut where
  sys : Sys
  /-- `(installedVersion, fromCache)` on success. -/
  result : Except String (String × Bool)
  /-- Number of tarball transfers performed. -/
  downloads : Nat
deriving DecidableEq

/-- `getPackageInfo` (package_manager.go:92-144): fetch the registry
document for the package and resolve the requested version against it. -/
def getPackageInfoM (reg : Registry) (name version : String) : Except String String :=
  match reg.meta name with
  | none => .error "failed to fetch package info"
  | some resp => getPackageInfoVersion version resp

/-- `isPackageInstalled` (package_manager.go:146-163): read
`node_modules/<name>/package.json` and compare its `version` field. -/
def isPackageInstalledM (σ : Sys) (name version : String) : Bool :=
  match lookupA σ.nodeModules name with
  | some t => t.pkgJsonVersion == some version
  | none => false

/-- `Install` (package_manager.go:50-86): resolve, then in order try the
already-installed check, the cache (`hasPackage` + `installFromCache`, the
copy modelled as succeeding), and finally `downloadAndExtract`, which
materialises the same tree into `node_modules/<name>` and the cache. -/
def InstallM (reg : Registry) (σ : Sys) (name version : String) : InstallOut :=
  match getPackageInfoM reg name version with
  | .error e => ⟨σ, .error e, 0⟩
  | .ok rv =>
    if isPackageInstalledM σ name rv then ⟨σ, .ok (rv, true), 0⟩
    else
      match lookupA σ.cache (name, rv) with
      | some t => ⟨{ σ with nodeModules := updateA σ.nodeModules name t }, .ok (rv, true), 0⟩
      | none =>
        match reg.tarball name rv with
        | none => ⟨σ, .error "failed to download and extract package", 1⟩
        | some t =>
          ⟨{ nodeModules := updateA σ.nodeModules name t,
             cache := updateA σ.cache (name, rv) t }, .ok (rv, false), 1⟩

/-! # Theorems -/

/-! ## Shared little lemmas -/

theorem mk_toList (s : String) : String.mk s.toList = s := rfl

theorem digit_not_space {c : Char} (h : isDigitC c = true) : isGoSpace c = false := by
  cases hc : isGoSpace c with
  | false => rfl
  | true =>
    simp only [isGoSpace, Bool.or_eq_true, decide_eq_true_eq] at hc
    rcases hc with ((((((rfl | rfl) | rfl) | rfl) | rfl) | rfl) | rfl) | rfl <;>
      simp [isDigitC] at h

theorem digit_ne_char {c d : Char} (h : isDigitC c = true) (hd : isDigitC d = false) : ¬(c = d) := by
  intro he
  subst he
  rw [h] at hd
  cases hd

theorem takeWhile_of_all {p : Char → Bool} :
    ∀ {l : List Char}, l.all p = true → l.takeWhile p = l := by
  intro l h
  induction l with
  | nil => rfl
  | cons a as ih =>
    simp only [List.all_cons, Bool.and_eq_true] at h
    simp [List.takeWhile_cons, h.1, ih h.2]

theorem dropWhile_of_head {p : Char → Bool} {c : Char} {cs : List Char} (h : p c = false) :
    (c :: cs).dropWhile p = c :: cs := by
  simp [List.dropWhile_cons, h]

theorem splitCh_of_no_sep {c : Char} {s : String} (h : ∀ a ∈ s.toList, ¬(a = c)) :
    splitCh c s = [s] := by
  unfold splitCh
  rw [List.splitOn, List.splitOnP_eq_single]
  · exact congrArg (fun l => [l]) (mk_toList s)
  · intro x hx
    simpa using h x hx

/-! ## C10: the two `compareVersions` implementations -/

theorem digits_sscanf_eq_parsePart {s : String} (h : s.toList.all isDigitC = true) :
    sscanfInt s = parseVersionPart s := by
  have hsplit1 : splitCh '-' s = [s] := by
    apply splitCh_of_no_sep
    intro a ha
    exact digit_ne_char (by simpa using List.all_eq_true.mp h a ha) (by decide)
  have hsplit2 : splitCh '+' s = [s] := by
    apply splitCh_of_no_sep
    intro a ha
    exact digit_ne_char (by simpa using List.all_eq_true.mp h a ha) (by decide)
  unfold parseVersionPart
  rw [hsplit1]
  simp only [List.headD_cons]
  rw [hsplit2]
  simp only [List.headD_cons]
  cases hl : s.toList with
  | nil =>
    unfold sscanfInt goAtoi
    rw [hl]
    simp [sscanfIntDigits, goAtoiDigits]
  | cons c cs =>
    have hcd : isDigitC c = true := by
      have := List.all_eq_true.mp h c (by rw [hl]; exact List.mem_cons_self c cs)
      simpa using this
    have hallcs : cs.all isDigitC = true := by
      rw [hl] at h
      simp only [List.all_cons, Bool.and_eq_true] at h
      exact h.2
    have hcplus : ¬(c = '+') := digit_ne_char hcd (by decide)
    have hcminus : ¬(c = '-') := digit_ne_char hcd (by decide)
    have hdrop : (c :: cs).dropWhile isGoSpace = c :: cs :=
      dropWhile_of_head (digit_not_space hcd)
    have htake : (c :: cs).takeWhile isDigitC = c :: cs := by
      apply takeWhile_of_all
      rw [← hl]; exact h
    unfold sscanfInt goAtoi
    rw [hl, hdrop]
    have hs1 : (match (c :: cs) with
        | '+' :: rest => sscanfIntDigits false rest
        | '-' :: rest => sscanfIntDigits true rest
        | l => sscanfIntDigits false l) = sscanfIntDigits false (c :: cs) := by
      split
      · rename_i heq; rw [List.cons_eq_cons] at heq; exact absurd heq.1 hcplus
      · rename_i heq; rw [List.cons_eq_cons] at heq; exact absurd heq.1 hcminus
      · rfl
    have hs2 : (match (c :: cs) with
        | '+' :: rest => goAtoiDigits false rest
        | '-' :: rest => goAtoiDigits true rest
        | l => goAtoiDigits false l) = goAtoiDigits false (c :: cs) := by
      split
      · rename_i heq; rw [List.cons_eq_cons] at heq; exact absurd heq.1 hcplus
      · rename_i heq; rw [List.cons_eq_cons] at heq; exact absurd heq.1 hcminus
      · rfl
    rw [hs1, hs2]
    unfold sscanfIntDigits goAtoiDigits
    rw [htake]
    have hne : (c :: cs).isEmpty = false := rfl
    rw [hne]
    have hall : (c :: cs).all isDigitC = true := by rw [← hl]; exact h
    rw [hall]
    simp only [Bool.false_eq_true, if_false, if_true]
    by_cases hover : digitsToNat (c :: cs) ≤ 9223372036854775807 <;> simp [hover]

/-- C10 (amended): the method `PackageManager.compareVersions` and the
top-level `compareVersions` of upgrader.go agree on every pair of version
strings whose dot-separated components consist solely of decimal digits;
(they can disagree once a component mixes digits with other characters,
see the counterexample). -/
theorem C10_compareVersions_agree_on_numeric (v1 v2 : String)
    (h1 : (splitCh '.' v1).all (fun p => p.toList.all isDigitC) = true)
    (h2 : (splitCh '.' v2).all (fun p => p.toList.all isDigitC) = true) :
    pmCompareVersions v1 v2 = upCompareVersions v1 v2 := by
  unfold pmCompareVersions upCompareVersions
  have e1 : (splitCh '.' v1).map sscanfInt = (splitCh '.' v1).map parseVersionPart := by
    apply List.map_congr_left
    intro p hp
    exact digits_sscanf_eq_parsePart (by simpa using List.all_eq_true.mp h1 p hp)
  have e2 : (splitCh '.' v2).map sscanfInt = (splitCh '.' v2).map parseVersionPart := by
    apply List.map_congr_left
    intro p hp
    exact digits_sscanf_eq_parsePart (by simpa using List.all_eq_true.mp h2 p hp)
  rw [e1, e2]

/-- C10 counterexample: on the pair `("1x", "0")` the package_manager.go
comparator answers `1` (Sscanf reads the leading digits of `"1x"`) while the
upgrader.go comparator answers `0` (Atoi rejects `"1x"` and falls back to 0),
so the two comparators do not agree on every pair of version strings. -/
theorem C10_counterexample :
    pmCompareVersions "1x" "0" = 1 ∧ upCompareVersions "1x" "0" = 0 ∧
    pmCompareVersions "1x" "0" ≠ upCompareVersions "1x" "0" := by
  refine ⟨by decide, by decide, by decide⟩

/-- Witness for C10: the amended agreement theorem applied at
`("1.10.0", "1.9")`. -/
theorem C10_compareVersions_agree_on_numeric_witness :
    pmCompareVersions "1.10.0" "1.9" = upCompareVersions "1.10.0" "1.9" :=
  C10_compareVersions_agree_on_numeric "1.10.0" "1.9" (by decide) (by decide)

/-! ## C8: cache directory names -/

theorem toList_append (s t : String) : (s ++ t).toList = s.toList ++ t.toList :=
  String.data_append s t

theorem mk_append (a b : List Char) : String.mk a ++ String.mk b = String.mk (a ++ b) := rfl

theorem mk_injective {a b : List Char} (h : String.mk a = String.mk b) : a = b :=
  congrArg String.toList h

theorem splitOn_of_no_sep {c : Char} {l : List Char} (h : ∀ a ∈ l, ¬(a = c)) :
    l.splitOn c = [l] := by
  rw [List.splitOn]
  exact List.splitOnP_eq_single _ _ (by intro x hx; simpa using h x hx)

theorem splitOn_append_cons (c : Char) (A B : List Char) :
    (A ++ c :: B).splitOn c = A.splitOn c ++ B.splitOn c := by
  induction A with
  | nil =>
    simp only [List.nil_append, List.splitOn, List.splitOnP_cons, List.splitOnP_nil,
      beq_self_eq_true, if_true]
    rfl
  | cons a A ih =>
    simp only [List.cons_append, List.splitOn, List.splitOnP_cons] at *
    by_cases hac : (a == c) = true
    · simp [hac, ih]
    · simp only [hac, Bool.false_eq_true, if_false]
      rw [ih]
      cases hA : List.splitOnP (fun x => x == c) A with
      | nil => exact absurd hA (List.splitOnP_ne_nil _ A)
      | cons h t => simp [List.modifyHead]

/-- `strings.Join _ "-"` at the character-list level, for relating the parse
of a cache directory name back to its pieces. -/
def joinCh (c : Char) : List (List Char) → List Char
  | [] => []
  | [p] => p
  | p :: rest => p ++ c :: joinCh c rest

theorem joinCh_splitOn (c : Char) (l : List Char) : joinCh c (l.splitOn c) = l := by
  induction l with
  | nil => rfl
  | cons a l ih =>
    rw [List.splitOn, List.splitOnP_cons] at *
    by_cases hac : (a == c) = true
    · rw [if_pos hac]
      cases hl : List.splitOnP (fun x => x == c) l with
      | nil => exact absurd hl (List.splitOnP_ne_nil _ l)
      | cons r0 rt =>
        rw [hl] at ih
        have : joinCh c ([] :: r0 :: rt) = c :: joinCh c (r0 :: rt) := rfl
        rw [this, ih]
        have : a = c := by simpa using hac
        rw [this]
    · rw [if_neg hac]
      cases hl : List.splitOnP (fun x => x == c) l with
      | nil => exact absurd hl (List.splitOnP_ne_nil _ l)
      | cons r0 rt =>
        rw [hl] at ih
        cases rt with
        | nil => simpa [List.modifyHead, joinCh] using congrArg (fun x => a :: x) ih
        | cons q t =>
          have hj : joinCh c ((a :: r0) :: q :: t) = (a :: r0) ++ c :: joinCh c (q :: t) := rfl
          simp only [List.modifyHead, hj]
          have hj2 : joinCh c (r0 :: q :: t) = r0 ++ c :: joinCh c (q :: t) := rfl
          rw [hj2] at ih
          simpa using congrArg (fun x => a :: x) ih

theorem joinStrs_map_mk (c : Char) (ps : List (List Char)) :
    joinStrs (String.mk [c]) (ps.map String.mk) = String.mk (joinCh c ps) := by
  induction ps with
  | nil => rfl
  | cons p rest ih =>
    cases rest with
    | nil => rfl
    | cons q t =>
      have hl : joinStrs (String.mk [c]) (String.mk p :: String.mk q :: t.map String.mk)
          = String.mk p ++ String.mk [c] ++ joinStrs (String.mk [c]) (String.mk q :: t.map String.mk) := rfl
      simp only [List.map_cons] at *
      rw [hl, ih]
      rw [mk_append, mk_append]
      have hj : joinCh c (p :: q :: t) = p ++ c :: joinCh c (q :: t) := rfl
      rw [hj]
      exact congrArg String.mk (by simp)

/-- C8 (amended): for every package name and every version and digest
containing no `-`, `listPackages` parses the base directory name produced by
`getPackagePath` back into exactly the original (name, version) pair.  (The
hex digest never contains `-`; versions can, see the counterexample.) -/
theorem C8_cacheDirName_roundtrip (name version hash : String)
    (hv : ∀ a ∈ version.toList, ¬(a = '-'))
    (hh : ∀ a ∈ hash.toList, ¬(a = '-')) :
    parseCacheDirName (cacheDirName name version hash) = some (name, version) := by
  have hL : (cacheDirName name version hash).toList
      = name.toList ++ '-' :: (version.toList ++ '-' :: hash.toList) := by
    show (name ++ "-" ++ version ++ "-" ++ hash).toList = _
    rw [toList_append, toList_append, toList_append, toList_append]
    simp [List.append_assoc]
  have hparts : splitCh '-' (cacheDirName name version hash)
      = (name.toList.splitOn '-').map String.mk ++ [version, hash] := by
    unfold splitCh
    rw [hL, splitOn_append_cons, splitOn_append_cons,
      splitOn_of_no_sep hv, splitOn_of_no_sep hh]
    simp [mk_toList]
  have hlen : 1 ≤ ((name.toList.splitOn '-').map String.mk).length := by
    have hne : name.toList.splitOn '-' ≠ [] := by
      rw [List.splitOn]; exact List.splitOnP_ne_nil _ _
    simpa [List.length_map] using List.length_pos.mpr hne
  unfold parseCacheDirName
  rw [hparts]
  rw [if_pos (by simp only [List.length_append, List.length_cons, List.length_nil]; omega)]
  have hsplit2 : ((name.toList.splitOn '-').map String.mk ++ [version, hash])
      = (((name.toList.splitOn '-').map String.mk ++ [version]) ++ [hash]) := by simp
  rw [hsplit2]
  simp only [List.dropLast_concat, List.getLastD_concat]
  have hjoin : joinStrs "-" ((name.toList.splitOn '-').map String.mk) = name := by
    have : ("-" : String) = String.mk ['-'] := rfl
    rw [this, joinStrs_map_mk, joinCh_splitOn]
    exact mk_toList name
  rw [hjoin]

/-- C8 counterexample: for the version `1.0.0-beta` (a hyphenated
pre-release), the cache directory base name parses back to the wrong pair
`("pkg-1.0.0", "beta")`, not to the original `("pkg", "1.0.0-beta")`, so the
claimed round trip fails for versions containing `-`.  (`aabbccddeeff`
stands for the 12-hex-character digest, which never contains `-`.) -/
theorem C8_counterexample :
    parseCacheDirName (cacheDirName "pkg" "1.0.0-beta" "aabbccddeeff") = some ("pkg-1.0.0", "beta") ∧
    parseCacheDirName (cacheDirName "pkg" "1.0.0-beta" "aabbccddeeff") ≠ some ("pkg", "1.0.0-beta") := by
  refine ⟨by decide, by decide⟩

/-- Witness for C8: the round trip applied to `lodash@4.17.21` with a
hyphen-free digest. -/
theorem C8_cacheDirName_roundtrip_witness :
    parseCacheDirName (cacheDirName "node-fetch" "4.17.21" "abc123def456") = some ("node-fetch", "4.17.21") :=
  C8_cacheDirName_roundtrip "node-fetch" "4.17.21" "abc123def456" (by decide) (by decide)

/-! ## C9: `removePackage` touches only the given name -/

theorem lookupA_filter_ne {α : Type} (l : List (String × α)) (name n : String) (hne : n ≠ name) :
    lookupA (l.filter (fun kv => !(kv.1 == name))) n = lookupA l n := by
  induction l with
  | nil => rfl
  | cons kv rest ih =>
    obtain ⟨k, v⟩ := kv
    by_cases hk : k = name
    · subst hk
      have h1 : (!(k == k)) = false := by simp
      have h2 : (k == n) = false := by simp [Ne.symm hne]
      simp [List.filter_cons, h1, lookupA, h2, ih]
    · have h1 : (!(k == name)) = true := by simp [hk]
      by_cases hkn : k = n
      · subst hkn
        simp [List.filter_cons, h1, lookupA]
      · have h2 : (k == n) = false := by simp [hkn]
        simp [List.filter_cons, h1, lookupA, h2, ih]

theorem lookupA_filter_self {α : Type} (l : List (String × α)) (name : String) :
    lookupA (l.filter (fun kv => !(kv.1 == name))) name = none := by
  induction l with
  | nil => rfl
  | cons kv rest ih =>
    obtain ⟨k, v⟩ := kv
    by_cases hk : k = name
    · subst hk
      have h1 : (!(k == k)) = false := by simp
      simp [List.filter_cons, h1, ih]
    · have h1 : (!(k == name)) = true := by simp [hk]
      have h2 : (k == name) = false := by simp [hk]
      simp [List.filter_cons, h1, lookupA, h2, ih]

/-- C9: `removePackage name` keeps every package entry whose `Name` differs
from `name`, drops exactly the entries whose `Name` equals `name`, leaves
the `Specifiers` and `DevPackages` rows of every other name unchanged, and
removes the rows of `name` itself. -/
theorem C9_removePackage_frame (lf : LockFile) (name : String) :
    (∀ kv ∈ lf.packages, kv.2.name ≠ name → kv ∈ (removePackage lf name).packages) ∧
    (∀ kv ∈ (removePackage lf name).packages, kv ∈ lf.packages ∧ kv.2.name ≠ name) ∧
    (∀ n, n ≠ name → lookupA (removePackage lf name).specifiers n = lookupA lf.specifiers n) ∧
    (∀ n, n ≠ name → lookupA (removePackage lf name).devPackages n = lookupA lf.devPackages n) ∧
    lookupA (removePackage lf name).specifiers name = none ∧
    lookupA (removePackage lf name).devPackages name = none := by
  refine ⟨?_, ?_, ?_, ?_, ?_, ?_⟩
  · intro kv hm hne
    unfold removePackage
    simp only [List.mem_filter]
    exact ⟨hm, by simp [hne]⟩
  · intro kv hm
    unfold removePackage at hm
    simp only [List.mem_filter] at hm
    refine ⟨hm.1, ?_⟩
    have := hm.2
    simp only [Bool.not_eq_eq_eq_not, Bool.not_true, beq_eq_false_iff_ne] at this
    exact this
  · intro n hn
    exact lookupA_filter_ne lf.specifiers name n hn
  · intro n hn
    exact lookupA_filter_ne lf.devPackages name n hn
  · exact lookupA_filter_self lf.specifiers name
  · exact lookupA_filter_self lf.devPackages name

/-- A small concrete lock structure for exercising `removePackage`. -/
def lockSample : LockFile :=
  { version := "1.0", createdAt := 0,
    packages := [("a@1.0.0", { name := "a", version := "1.0.0", resolved := "ua",
                               integrity := "", dependencies := [], devDep := false }),
                 ("b@2.0.0", { name := "b", version := "2.0.0", resolved := "ub",
                               integrity := "", dependencies := [], devDep := true })],
    specifiers := [("a", "^1"), ("b", "^2")],
    devPackages := [("b", "^2")] }

/-- Witness for C9: removing `a` from the sample lock structure keeps the
entry and the specifier row of `b`. -/
theorem C9_removePackage_frame_witness :
    ("b@2.0.0", ({ name := "b", version := "2.0.0", resolved := "ub", integrity := "",
                   dependencies := [], devDep := true } : LockPackage)) ∈
      (removePackage lockSample "a").packages ∧
    lookupA (removePackage lockSample "a").specifiers "b" = lookupA lockSample.specifiers "b" :=
  ⟨(C9_removePackage_frame lockSample "a").1 _ (by decide) (by decide),
   (C9_removePackage_frame lockSample "a").2.2.1 "b" (by decide)⟩

/-! ## C5: lock-document round trip -/

theorem strPairs_roundtrip (l : List (String × String)) :
    (l.map (fun kv => (kv.1, YNode.str kv.2))).map
      (fun kv => (kv.1, match kv.2 with | .str s => s | _ => "")) = l := by
  induction l with
  | nil => rfl
  | cons kv rest ih =>
    obtain ⟨a, b⟩ := kv
    simp [ih]

theorem strPairs_roundtrip_comp (l : List (String × String)) :
    List.map ((fun kv => ((kv : String × YNode).1,
        match kv.2 with | YNode.str s => s | _ => "")) ∘
      (fun kv => ((kv : String × String).1, YNode.str kv.2))) l = l := by
  induction l with
  | nil => rfl
  | cons kv rest ih =>
    obtain ⟨a, b⟩ := kv
    simp [Function.comp, ih]

theorem unmarshal_marshal_pkg (p : LockPackage) :
    unmarshalLockPackage (marshalLockPackage p) = p := by
  obtain ⟨n, v, r, i, d, dev⟩ := p
  by_cases hi : i = "" <;> by_cases hd : d = [] <;> cases dev <;>
    simp [marshalLockPackage, unmarshalLockPackage, yGetStr, yGetBool, yGetStrMap,
      yGetMap, lookupA, hi, hd, strPairs_roundtrip, strPairs_roundtrip_comp]

theorem pkgs_roundtrip (l : List (String × LockPackage)) :
    ((l.map (fun kv => (kv.1, marshalLockPackage kv.2))).map
      (fun kv => (kv.1, unmarshalLockPackage kv.2))) = l := by
  induction l with
  | nil => rfl
  | cons kv rest ih =>
    obtain ⟨k, p⟩ := kv
    simp [ih, unmarshal_marshal_pkg]

theorem pkgs_roundtrip_comp (l : List (String × LockPackage)) :
    List.map ((fun kv => ((kv : String × YNode).1, unmarshalLockPackage kv.2)) ∘
      (fun kv => ((kv : String × LockPackage).1, marshalLockPackage kv.2))) l = l := by
  induction l with
  | nil => rfl
  | cons kv rest ih =>
    obtain ⟨k, p⟩ := kv
    simp [Function.comp, ih, unmarshal_marshal_pkg]

/-- C5: persisting a lock structure with `saveLockFile` and reloading it
with `loadLockFile` reproduces it exactly, except that `createdAt` now holds
the persist-time timestamp. -/
theorem C5_lockfile_roundtrip (lf : LockFile) (now : Nat) :
    loadLockFile (saveLockFile lf now) = { lf with createdAt := now } := by
  obtain ⟨v, c, pkgs, specs, devs⟩ := lf
  by_cases hdev : devs = [] <;>
    simp [saveLockFile, loadLockFile, hdev, yGetStr, yGetTime, yGetMap, yGetStrMap,
      lookupA, pkgs_roundtrip, pkgs_roundtrip_comp, strPairs_roundtrip, strPairs_roundtrip_comp]

/-! ## C4: fallback to the `latest` dist-tag -/

/-- C4 counterexample: the requested range `9.9.9` is not `latest`, no
resolution rule yields a version for it (it is absent from the version map),
and the response carries a `latest` dist-tag naming `1.0.0` — yet
`getPackageInfo` returns a version-not-found error instead of falling back
to `1.0.0`: the fallback only runs for ranges containing `x`, `||`, `^` or
`~`, not for plain exact ranges. -/
theorem C4_counterexample :
    getPackageInfoVersion "9.9.9" ⟨["1.0.0"], [("latest", "1.0.0")]⟩ =
      .error "version not found" ∧
    getPackageInfoVersion "9.9.9" ⟨["1.0.0"], [("latest", "1.0.0")]⟩ ≠ .ok "1.0.0" := by
  refine ⟨by decide, by decide⟩

/-- C4 (amended): for every requested range that is not `latest` and contains
at least one of `x`, `||`, `^`, `~`, when the range-resolution rules yield no
version, `getPackageInfo` falls back to the version named by the `latest`
dist-tag (succeeding when that version is in the version map and failing with
a version-not-found error otherwise), and returns the
could-not-resolve error only when the dist-tag is absent.  Plain exact ranges
absent from the version map get no fallback (see the counterexample). -/
theorem C4_latest_fallback (version : String) (resp : RegistryResponse)
    (h1 : (version == "latest") = false)
    (h2 : (goContains version "x" || goContains version "||" ||
           goContains version "^" || goContains version "~") = true)
    (h3 : resolveVersionRange version resp.versions = "") :
    (∀ lv, lookupA resp.distTags "latest" = some lv →
      getPackageInfoVersion version resp =
        (if resp.versions.contains lv then .ok lv else .error "version not found")) ∧
    (lookupA resp.distTags "latest" = none →
      getPackageInfoVersion version resp = .error "could not resolve version range") := by
  constructor
  · intro lv hlv
    simp [getPackageInfoVersion, h1, h2, h3, hlv]
  · intro hlv
    simp [getPackageInfoVersion, h1, h2, h3, hlv]

/-- Witness for C4: the unresolvable range `^9.0.0` against a registry
carrying `latest -> 1.0.0` resolves to `1.0.0`. -/
theorem C4_latest_fallback_witness :
    getPackageInfoVersion "^9.0.0" ⟨["1.0.0"], [("latest", "1.0.0")]⟩ =
      (if (["1.0.0"] : List String).contains "1.0.0" then Except.ok "1.0.0"
       else Except.error "version not found") :=
  (C4_latest_fallback "^9.0.0" ⟨["1.0.0"], [("latest", "1.0.0")]⟩
    (by decide) (by decide) (by decide)).1 "1.0.0" (by decide)

/-! ## C2: `||` alternatives are tried left to right -/

theorem resolveParts_first (avail : List String) :
    ∀ (parts : List String) (i : Nat),
      i < parts.length →
      resolveSingleVersion (goTrimSpace (parts.getD i "")) avail ≠ "" →
      (∀ j, j < i → resolveSingleVersion (goTrimSpace (parts.getD j "")) avail = "") →
      resolveParts parts avail = resolveSingleVersion (goTrimSpace (parts.getD i "")) avail := by
  intro parts
  induction parts with
  | nil => intro i hi; simp at hi
  | cons p rest ih =>
    intro i hi hne hbefore
    cases i with
    | zero =>
      simp only [List.getD_cons_zero] at hne ⊢
      unfold resolveParts
      rw [if_pos hne]
    | succ i =>
      have h0 : resolveSingleVersion (goTrimSpace p) avail = "" := by
        simpa using hbefore 0 (Nat.succ_pos i)
      simp only [List.getD_cons_succ] at hne ⊢
      unfold resolveParts
      rw [h0, if_neg (by simp)]
      exact ih i (by simpa using hi) hne
        (fun j hj => by simpa using hbefore (j + 1) (by omega))

/-- C2: when a range contains `||`, `resolveVersionRange` splits on `||`,
evaluates the (trimmed) alternatives strictly left to right and returns the
result of the first alternative that yields a match — no globally best match
across alternatives is sought; in particular `^2.0.0 || ^1.0.0` against
`{1.5.0, 3.0.0}` resolves to `1.5.0`, not `3.0.0`. -/
theorem C2_orAlternatives_leftToRight (r : String) (avail : List String) (i : Nat)
    (hr : goContains r "||" = true)
    (hi : i < (goSplitBars r).length)
    (hmatch : resolveSingleVersion (goTrimSpace ((goSplitBars r).getD i "")) avail ≠ "")
    (hbefore : ∀ j, j < i →
      resolveSingleVersion (goTrimSpace ((goSplitBars r).getD j "")) avail = "") :
    resolveVersionRange r avail =
      resolveSingleVersion (goTrimSpace ((goSplitBars r).getD i "")) avail ∧
    resolveVersionRange "^2.0.0 || ^1.0.0" ["1.5.0", "3.0.0"] = "1.5.0" := by
  constructor
  · unfold resolveVersionRange
    rw [if_pos hr]
    exact resolveParts_first avail _ i hi hmatch hbefore
  · decide

/-- Witness for C2: the range `^2.0.0 || ^1.0.0` against `{1.5.0, 3.0.0}`:
the first alternative finds nothing, the second (index 1) is taken. -/
theorem C2_orAlternatives_leftToRight_witness :
    resolveVersionRange "^2.0.0 || ^1.0.0" ["1.5.0", "3.0.0"] = "1.5.0" :=
  ((C2_orAlternatives_leftToRight "^2.0.0 || ^1.0.0" ["1.5.0", "3.0.0"] 1
    (by decide) (by decide) (by decide) (by decide)).1).trans (by decide)

/-! ## Order-theoretic facts about the numeric comparator

`resolveSingleVersion` keeps a running best and replaces it whenever a
candidate compares strictly greater; showing that the final value is a
maximum of all matches needs the comparator to be a total preorder. -/

theorem cmpPadded_nil_nil : cmpPadded [] [] = 0 := rfl

theorem cmpPadded_ht (xs ys : List Int) (h : xs ≠ [] ∨ ys ≠ []) :
    cmpPadded xs ys = if xs.headD 0 > ys.headD 0 then 1
      else if xs.headD 0 < ys.headD 0 then -1 else cmpPadded xs.tail ys.tail := by
  match xs, ys with
  | [], [] => simp at h
  | [], y :: ys => simp [cmpPadded, cmpZeros]
  | x :: xs, [] => simp [cmpPadded]
  | x :: xs, y :: ys => simp [cmpPadded]

theorem cmpPadded_swap : ∀ (n : Nat) (xs ys : List Int), xs.length + ys.length ≤ n →
    cmpPadded ys xs = -cmpPadded xs ys := by
  intro n
  induction n with
  | zero =>
    intro xs ys hlen
    have hx : xs = [] := List.length_eq_zero.mp (by omega)
    have hy : ys = [] := List.length_eq_zero.mp (by omega)
    subst hx; subst hy; rfl
  | succ n ih =>
    intro xs ys hlen
    by_cases hnil : xs = [] ∧ ys = []
    · obtain ⟨rfl, rfl⟩ := hnil; rfl
    · have h1 : xs ≠ [] ∨ ys ≠ [] := by tauto
      rw [cmpPadded_ht xs ys h1, cmpPadded_ht ys xs h1.symm]
      have hlt : xs.tail.length + ys.tail.length ≤ n := by
        have e1 : xs.tail.length = xs.length - 1 := List.length_tail xs
        have e2 : ys.tail.length = ys.length - 1 := List.length_tail ys
        rcases not_and_or.mp hnil with h | h
        · have := List.length_pos.mpr h; omega
        · have := List.length_pos.mpr h; omega
      have hih := ih xs.tail ys.tail hlt
      rcases lt_trichotomy (xs.headD 0) (ys.headD 0) with h | h | h
      · rw [if_pos (by omega), if_neg (by omega), if_pos h]; norm_num
      · rw [if_neg (by omega), if_neg (by omega), if_neg (by omega), if_neg (by omega), hih]
      · rw [if_neg (by omega), if_pos (by omega), if_pos h]

theorem cmpPadded_self (xs : List Int) : cmpPadded xs xs = 0 := by
  have := cmpPadded_swap (xs.length + xs.length) xs xs (le_refl _)
  omega

theorem cmpPadded_le_facts (xs ys : List Int) (h : cmpPadded xs ys ≤ 0) :
    xs.headD 0 ≤ ys.headD 0 ∧
    (xs.headD 0 = ys.headD 0 → cmpPadded xs.tail ys.tail ≤ 0) := by
  by_cases hnil : xs = [] ∧ ys = []
  · obtain ⟨rfl, rfl⟩ := hnil
    exact ⟨le_refl 0, fun _ => le_of_eq cmpPadded_nil_nil⟩
  · rw [cmpPadded_ht _ _ (by tauto)] at h
    split_ifs at h with h1 h2
    · exact absurd h (by norm_num)
    · exact ⟨le_of_lt h2, fun he => by omega⟩
    · exact ⟨by omega, fun _ => h⟩

theorem cmpPadded_trans : ∀ (n : Nat) (xs ys zs : List Int),
    xs.length + ys.length + zs.length ≤ n →
    cmpPadded xs ys ≤ 0 → cmpPadded ys zs ≤ 0 → cmpPadded xs zs ≤ 0 := by
  intro n
  induction n with
  | zero =>
    intro xs ys zs hlen h1 h2
    have hx : xs = [] := List.length_eq_zero.mp (by omega)
    have hz : zs = [] := List.length_eq_zero.mp (by omega)
    subst hx; subst hz
    exact le_of_eq cmpPadded_nil_nil
  | succ n ih =>
    intro xs ys zs hlen h1 h2
    by_cases hnil : xs = [] ∧ zs = []
    · obtain ⟨rfl, rfl⟩ := hnil
      exact le_of_eq cmpPadded_nil_nil
    · have f1 := cmpPadded_le_facts xs ys h1
      have f2 := cmpPadded_le_facts ys zs h2
      rw [cmpPadded_ht xs zs (by tauto)]
      split_ifs with hgt hlt
      · exfalso; omega
      · norm_num
      · have hab : xs.headD 0 = ys.headD 0 := by omega
        have hbc : ys.headD 0 = zs.headD 0 := by omega
        refine ih xs.tail ys.tail zs.tail ?_ (f1.2 hab) (f2.2 hbc)
        have e1 : xs.tail.length = xs.length - 1 := List.length_tail xs
        have e2 : ys.tail.length = ys.length - 1 := List.length_tail ys
        have e3 : zs.tail.length = zs.length - 1 := List.length_tail zs
        rcases not_and_or.mp hnil with h | h
        · have := List.length_pos.mpr h; omega
        · have := List.length_pos.mpr h; omega

theorem pmCompare_swap (a b : String) : pmCompareVersions b a = -pmCompareVersions a b :=
  cmpPadded_swap _ _ _ (le_refl _)

theorem pmCompare_self (a : String) : pmCompareVersions a a = 0 := cmpPadded_self _

theorem pmCompare_le_trans {a b c : String} (h1 : pmCompareVersions a b ≤ 0)
    (h2 : pmCompareVersions b c ≤ 0) : pmCompareVersions a c ≤ 0 :=
  cmpPadded_trans _ _ _ _ (le_refl _) h1 h2

theorem pmCompare_le_of_gt {a b : String} (h : pmCompareVersions a b > 0) :
    pmCompareVersions b a ≤ 0 := by
  have := pmCompare_swap a b
  omega

/-! ## The selection loop returns a maximum of the matching versions -/

theorem bestBy_go_spec (p : String → Bool) (hp : ∀ v, p v = true → v ≠ "") :
    ∀ (l : List String) (b : String), b ≠ "" → p b = true →
      (l.foldl (bestByStep p) b ≠ "" ∧ p (l.foldl (bestByStep p) b) = true ∧
       (l.foldl (bestByStep p) b = b ∨ l.foldl (bestByStep p) b ∈ l) ∧
       pmCompareVersions b (l.foldl (bestByStep p) b) ≤ 0 ∧
       ∀ v ∈ l, p v = true → pmCompareVersions v (l.foldl (bestByStep p) b) ≤ 0) := by
  intro l
  induction l with
  | nil =>
    intro b hb hpb
    refine ⟨hb, hpb, Or.inl rfl, le_of_eq (pmCompare_self b), ?_⟩
    intro v hv
    cases hv
  | cons u rest ih =>
    intro b hb hpb
    by_cases hpu : p u = true
    · by_cases hgt : pmCompareVersions u b > 0
      · have hstep : bestByStep p b u = u := by
          unfold bestByStep
          rw [if_pos hpu, if_pos (Or.inr hgt)]
        have hu := hp u hpu
        obtain ⟨g1, g2, g3, g4, g5⟩ := ih u hu hpu
        have hfold : (u :: rest).foldl (bestByStep p) b = rest.foldl (bestByStep p) u := by
          simp [List.foldl_cons, hstep]
        rw [hfold]
        refine ⟨g1, g2, ?_, ?_, ?_⟩
        · rcases g3 with h | h
          · exact Or.inr (by rw [h]; exact List.mem_cons_self u rest)
          · exact Or.inr (List.mem_cons_of_mem u h)
        · exact pmCompare_le_trans (pmCompare_le_of_gt hgt) g4
        · intro v hv hpv
          rcases List.mem_cons.mp hv with rfl | hv
          · exact g4
          · exact g5 v hv hpv
      · have hstep : bestByStep p b u = b := by
          unfold bestByStep
          rw [if_pos hpu, if_neg]
          intro hor
          rcases hor with h | h
          · exact hb h
          · exact hgt h
        obtain ⟨g1, g2, g3, g4, g5⟩ := ih b hb hpb
        have hfold : (u :: rest).foldl (bestByStep p) b = rest.foldl (bestByStep p) b := by
          simp [List.foldl_cons, hstep]
        rw [hfold]
        refine ⟨g1, g2, ?_, g4, ?_⟩
        · rcases g3 with h | h
          · exact Or.inl h
          · exact Or.inr (List.mem_cons_of_mem u h)
        · intro v hv hpv
          rcases List.mem_cons.mp hv with rfl | hv
          · exact pmCompare_le_trans (by omega) g4
          · exact g5 v hv hpv
    · have hstep : bestByStep p b u = b := by
        unfold bestByStep
        rw [if_neg (by simp [hpu])]
      obtain ⟨g1, g2, g3, g4, g5⟩ := ih b hb hpb
      have hfold : (u :: rest).foldl (bestByStep p) b = rest.foldl (bestByStep p) b := by
        simp [List.foldl_cons, hstep]
      rw [hfold]
      refine ⟨g1, g2, ?_, g4, ?_⟩
      · rcases g3 with h | h
        · exact Or.inl h
        · exact Or.inr (List.mem_cons_of_mem u h)
      · intro v hv hpv
        rcases List.mem_cons.mp hv with rfl | hv
        · exact absurd hpv hpu
        · exact g5 v hv hpv

theorem bestBy_spec (p : String → Bool) (hp : ∀ v, p v = true → v ≠ "") :
    ∀ (l : List String), (∃ v ∈ l, p v = true) →
      bestBy l p ∈ l ∧ p (bestBy l p) = true ∧
      ∀ v ∈ l, p v = true → pmCompareVersions v (bestBy l p) ≤ 0 := by
  intro l
  induction l with
  | nil =>
    intro hex
    obtain ⟨v, hv, _⟩ := hex
    cases hv
  | cons u rest ih =>
    intro hex
    by_cases hpu : p u = true
    · have hstep : bestByStep p "" u = u := by
        unfold bestByStep
        rw [if_pos hpu, if_pos (Or.inl rfl)]
      have hfold : bestBy (u :: rest) p = rest.foldl (bestByStep p) u := by
        simp [bestBy, List.foldl_cons, hstep]
      obtain ⟨g1, g2, g3, g4, g5⟩ := bestBy_go_spec p hp rest u (hp u hpu) hpu
      rw [hfold]
      refine ⟨?_, g2, ?_⟩
      · rcases g3 with h | h
        · rw [h]; exact List.mem_cons_self u rest
        · exact List.mem_cons_of_mem u h
      · intro v hv hpv
        rcases List.mem_cons.mp hv with rfl | hv
        · exact g4
        · exact g5 v hv hpv
    · have hstep : bestByStep p "" u = "" := by
        unfold bestByStep
        rw [if_neg (by simp [hpu])]
      have hfold : bestBy (u :: rest) p = bestBy rest p := by
        simp [bestBy, List.foldl_cons, hstep]
      have hex' : ∃ v ∈ rest, p v = true := by
        obtain ⟨v, hv, hpv⟩ := hex
        rcases List.mem_cons.mp hv with rfl | hv
        · exact absurd hpv hpu
        · exact ⟨v, hv, hpv⟩
      obtain ⟨g1, g2, g3⟩ := ih hex'
      rw [hfold]
      exact ⟨List.mem_cons_of_mem u g1, g2, fun v hv hpv => by
        rcases List.mem_cons.mp hv with rfl | hv
        · exact absurd hpv hpu
        · exact g3 v hv hpv⟩

/-! ## C3: caret ranges pick the highest same-major version -/

theorem dropWhile_of_all_false {p : Char → Bool} {l : List Char}
    (h : ∀ c ∈ l, p c = false) : l.dropWhile p = l := by
  cases l with
  | nil => rfl
  | cons a as => simp [List.dropWhile_cons, h a (List.mem_cons_self a as)]

theorem goTrimSpace_eq_self {s : String} (h : ∀ c ∈ s.toList, isGoSpace c = false) :
    goTrimSpace s = s := by
  unfold goTrimSpace
  rw [dropWhile_of_all_false h,
    dropWhile_of_all_false (fun c hc => h c (List.mem_reverse.mp hc)),
    List.reverse_reverse]
  exact mk_toList s

theorem contains_single_false {c : Char} {l : List Char} (h : ∀ a ∈ l, ¬(a = c)) :
    containsSub [c] l = false := by
  induction l with
  | nil => rfl
  | cons a as ih =>
    unfold containsSub
    have h1 : ([c].isPrefixOf (a :: as)) = false := by
      simp only [List.isPrefixOf, Bool.and_eq_true, beq_iff_eq]
      simp only [Bool.and_eq_false_iff, beq_eq_false_iff_ne, ne_eq]
      exact Or.inl (fun he => h a (List.mem_cons_self a as) he.symm)
    rw [h1, ih (fun x hx => h x (List.mem_cons_of_mem a hx))]
    rfl

theorem splitCh_ne_nil (c : Char) (s : String) : splitCh c s ≠ [] := by
  unfold splitCh
  intro h
  rw [List.map_eq_nil_iff, List.splitOn] at h
  exact List.splitOnP_ne_nil _ _ h

theorem splitCh_length_pos (c : Char) (s : String) : 1 ≤ (splitCh c s).length :=
  List.length_pos.mpr (splitCh_ne_nil c s)

/-- The major component of a version string: its first dot-separated piece
(what the caret rule of `resolveSingleVersion` compares). -/
def majorOf (v : String) : String :=
  (splitCh '.' v).headD ""

theorem majorOf_empty : majorOf "" = "" := by decide

theorem caretPred_iff (X v : String) :
    ((decide (1 ≤ (splitCh '.' v).length) && ((splitCh '.' v).headD "" == X)) = true)
      ↔ majorOf v = X := by
  rw [Bool.and_eq_true, decide_eq_true_eq, beq_iff_eq]
  unfold majorOf
  exact ⟨fun h => h.2, fun h => ⟨splitCh_length_pos '.' v, h⟩⟩

theorem caret_range_toList (X Y Z : String) :
    ("^" ++ X ++ "." ++ Y ++ "." ++ Z).toList
      = '^' :: (X.toList ++ '.' :: (Y.toList ++ '.' :: Z.toList)) := by
  rw [toList_append, toList_append, toList_append, toList_append]
  simp [List.append_assoc]

theorem caret_range_chars {X Y Z : String}
    (hX : X.toList.all isDigitC = true) (hY : Y.toList.all isDigitC = true)
    (hZ : Z.toList.all isDigitC = true) :
    ∀ c ∈ ("^" ++ X ++ "." ++ Y ++ "." ++ Z).toList,
      c = '^' ∨ c = '.' ∨ isDigitC c = true := by
  intro c hc
  rw [caret_range_toList] at hc
  rcases List.mem_cons.mp hc with rfl | hc
  · exact Or.inl rfl
  rcases List.mem_append.mp hc with hm | hc
  · exact Or.inr (Or.inr (by simpa using List.all_eq_true.mp hX c hm))
  rcases List.mem_cons.mp hc with rfl | hc
  · exact Or.inr (Or.inl rfl)
  rcases List.mem_append.mp hc with hm | hc
  · exact Or.inr (Or.inr (by simpa using List.all_eq_true.mp hY c hm))
  rcases List.mem_cons.mp hc with rfl | hc
  · exact Or.inr (Or.inl rfl)
  · exact Or.inr (Or.inr (by simpa using List.all_eq_true.mp hZ c hc))

theorem resolveSingleVersion_caret_eq (X Y Z : String) (avail : List String)
    (hX : X.toList.all isDigitC = true) (hY : Y.toList.all isDigitC = true)
    (hZ : Z.toList.all isDigitC = true) :
    resolveSingleVersion ("^" ++ X ++ "." ++ Y ++ "." ++ Z) avail
      = bestBy avail (fun v =>
          decide (1 ≤ (splitCh '.' v).length) && ((splitCh '.' v).headD "" == X)) := by
  have hchars := caret_range_chars hX hY hZ
  have htrim : goTrimSpace ("^" ++ X ++ "." ++ Y ++ "." ++ Z) = "^" ++ X ++ "." ++ Y ++ "." ++ Z := by
    apply goTrimSpace_eq_self
    intro c hc
    rcases hchars c hc with rfl | rfl | h
    · decide
    · decide
    · exact digit_not_space h
  have hnox : goContains ("^" ++ X ++ "." ++ Y ++ "." ++ Z) "x" = false := by
    unfold goContains
    have hxl : ("x" : String).toList = ['x'] := rfl
    rw [hxl]
    apply contains_single_false
    intro a ha
    rcases hchars a ha with rfl | rfl | h
    · decide
    · decide
    · exact digit_ne_char h (by decide)
  have hpre : goHasPre ("^" ++ X ++ "." ++ Y ++ "." ++ Z) "^" = true := by
    unfold goHasPre
    have hcl : ("^" : String).toList = ['^'] := rfl
    rw [hcl, caret_range_toList]
    simp [List.isPrefixOf]
  have htrimpre : goTrimPre ("^" ++ X ++ "." ++ Y ++ "." ++ Z) "^"
      = String.mk (X.toList ++ '.' :: (Y.toList ++ '.' :: Z.toList)) := by
    unfold goTrimPre
    rw [hpre]
    simp only [if_true]
    rw [caret_range_toList]
    rfl
  have hmajor : (splitCh '.' (goTrimPre ("^" ++ X ++ "." ++ Y ++ "." ++ Z) "^")).headD "" = X := by
    rw [htrimpre]
    unfold splitCh
    have hmk : (String.mk (X.toList ++ '.' :: (Y.toList ++ '.' :: Z.toList))).toList
        = X.toList ++ '.' :: (Y.toList ++ '.' :: Z.toList) := rfl
    rw [hmk, splitOn_append_cons, splitOn_of_no_sep (fun a ha => by
      exact digit_ne_char (by simpa using List.all_eq_true.mp hX a ha) (by decide))]
    simp [mk_toList]
  have hlen1 : decide (1 ≤ (splitCh '.' (goTrimPre ("^" ++ X ++ "." ++ Y ++ "." ++ Z) "^")).length) = true :=
    decide_eq_true (splitCh_length_pos _ _)
  unfold resolveSingleVersion
  simp only [htrim, hnox, hpre, hlen1, hmajor, Bool.false_eq_true, if_false,
    Bool.and_self, if_true]

/-- C3: for every caret range `^X.Y.Z` (numeric components) and every
available-version list containing at least one version whose major component
equals `X`, `resolveSingleVersion` returns a version from the list whose
major component is `X` (never a different major) that is highest among all
majors-`X` versions under the component-wise numeric comparator. -/
theorem C3_caret_resolves_major (X Y Z : String) (avail : List String)
    (hX : X.toList.all isDigitC = true) (hY : Y.toList.all isDigitC = true)
    (hZ : Z.toList.all isDigitC = true) (hXne : X ≠ "")
    (hex : ∃ v ∈ avail, majorOf v = X) :
    resolveSingleVersion ("^" ++ X ++ "." ++ Y ++ "." ++ Z) avail ∈ avail ∧
    majorOf (resolveSingleVersion ("^" ++ X ++ "." ++ Y ++ "." ++ Z) avail) = X ∧
    ∀ v ∈ avail, majorOf v = X →
      pmCompareVersions v (resolveSingleVersion ("^" ++ X ++ "." ++ Y ++ "." ++ Z) avail) ≤ 0 := by
  rw [resolveSingleVersion_caret_eq X Y Z avail hX hY hZ]
  have hp : ∀ v, (decide (1 ≤ (splitCh '.' v).length) && ((splitCh '.' v).headD "" == X)) = true
      → v ≠ "" := by
    intro v hv he
    subst he
    exact hXne (by rw [← (caretPred_iff X "").mp hv, majorOf_empty])
  have hex' : ∃ v ∈ avail,
      (decide (1 ≤ (splitCh '.' v).length) && ((splitCh '.' v).headD "" == X)) = true := by
    obtain ⟨v, hv, hm⟩ := hex
    exact ⟨v, hv, (caretPred_iff X v).mpr hm⟩
  obtain ⟨g1, g2, g3⟩ := bestBy_spec _ hp avail hex'
  exact ⟨g1, (caretPred_iff X _).mp g2, fun v hv hm => g3 v hv ((caretPred_iff X v).mpr hm)⟩

/-- Witness for C3: `^1.0.0` against `{1.5.0, 3.0.0, 1.2.0}` returns a
member with major `1` that dominates every major-`1` version. -/
theorem C3_caret_resolves_major_witness :
    resolveSingleVersion ("^" ++ "1" ++ "." ++ "0" ++ "." ++ "0") ["1.5.0", "3.0.0", "1.2.0"]
        ∈ (["1.5.0", "3.0.0", "1.2.0"] : List String) ∧
    majorOf (resolveSingleVersion ("^" ++ "1" ++ "." ++ "0" ++ "." ++ "0")
        ["1.5.0", "3.0.0", "1.2.0"]) = "1" ∧
    ∀ v ∈ (["1.5.0", "3.0.0", "1.2.0"] : List String), majorOf v = "1" →
      pmCompareVersions v (resolveSingleVersion ("^" ++ "1" ++ "." ++ "0" ++ "." ++ "0")
        ["1.5.0", "3.0.0", "1.2.0"]) ≤ 0 :=
  C3_caret_resolves_major "1" "0" "0" ["1.5.0", "3.0.0", "1.2.0"]
    (by decide) (by decide) (by decide) (by decide) (by decide)

/-! ## C1: path-traversal entries are skipped, extraction continues -/

theorem entryActions_eq_nil_of_escapes (destPath cachePath : String) (e : TarEntry)
    (h : entryEscapes destPath e = true) :
    entryActions destPath cachePath e = [] := by
  unfold entryEscapes at h
  unfold entryActions
  by_cases hskip : goTrimPre e.name "package/" = "" ∨ goTrimPre e.name "package/" = e.name
  · rw [if_pos hskip]
  · rw [if_neg hskip]
    simp only [] at h ⊢
    rw [h]
    simp

/-- C1: an archive entry whose resolved target path (leading `package/`
segment stripped, joined to the destination root, cleaned) escapes the
cleaned destination root produces no filesystem action at all — no file
write and no directory creation, inside or outside the root — and the
extraction of the remaining entries is exactly what it would have been had
the offending entry not been present. -/
theorem C1_extract_skips_escaping_entry (destPath cachePath : String) (e : TarEntry)
    (l₁ l₂ : List TarEntry) (h : entryEscapes destPath e = true) :
    entryActions destPath cachePath e = [] ∧
    extractAndCache destPath cachePath (l₁ ++ e :: l₂)
      = extractAndCache destPath cachePath (l₁ ++ l₂) := by
  refine ⟨entryActions_eq_nil_of_escapes destPath cachePath e h, ?_⟩
  unfold extractAndCache
  rw [List.foldr_append, List.foldr_append]
  congr 1
  simp [entryActions_eq_nil_of_escapes destPath cachePath e h]

/-- Witness for C1: the traversal entry `package/../../evil` against the
destination `./node_modules/pkg` is skipped and the well-formed
`package/index.js` entry after it still extracts. -/
theorem C1_extract_skips_escaping_entry_witness :
    entryActions "./node_modules/pkg" "/home/u/.cache/gpm/pkg-1.0.0-abcdef123456"
      ⟨"package/../../evil", .reg⟩ = [] ∧
    extractAndCache "./node_modules/pkg" "/home/u/.cache/gpm/pkg-1.0.0-abcdef123456"
        ([] ++ ⟨"package/../../evil", .reg⟩ :: [⟨"package/index.js", .reg⟩])
      = extractAndCache "./node_modules/pkg" "/home/u/.cache/gpm/pkg-1.0.0-abcdef123456"
        ([] ++ [⟨"package/index.js", .reg⟩]) :=
  C1_extract_skips_escaping_entry "./node_modules/pkg"
    "/home/u/.cache/gpm/pkg-1.0.0-abcdef123456" ⟨"package/../../evil", .reg⟩
    [] [⟨"package/index.js", .reg⟩] (by decide)

/-! ## C6: installing the same (name, exactVersion) twice -/

theorem lookupA_updateA_self {κ α : Type} [BEq κ] [LawfulBEq κ]
    (l : List (κ × α)) (k : κ) (v : α) : lookupA (updateA l k v) k = some v := by
  induction l with
  | nil => simp [updateA, lookupA]
  | cons kv rest ih =>
    obtain ⟨k', v'⟩ := kv
    by_cases hk : k' == k
    · simp [updateA, hk, lookupA]
    · simp [updateA, hk, lookupA, ih]

theorem updateA_idem {κ α : Type} [BEq κ] [LawfulBEq κ]
    (l : List (κ × α)) (k : κ) (v : α) : updateA (updateA l k v) k v = updateA l k v := by
  induction l with
  | nil => simp [updateA]
  | cons kv rest ih =>
    obtain ⟨k', v'⟩ := kv
    by_cases hk : k' == k
    · simp [updateA, hk]
    · simp [updateA, hk, ih]

/-- C6: if an `Install` run for `(name, version)` succeeds (from any state,
cached or not), then running `Install` again for the same pair resolves to
the same version, is classified as a cache/installed hit (`fromCache =
true`), performs no tarball transfer, and leaves the whole filesystem state
— in particular the `node_modules` tree — exactly as the first run left it. -/
theorem C6_install_idempotent (reg : Registry) (σ σ' : Sys) (name version v : String)
    (b : Bool) (d : Nat)
    (h : InstallM reg σ name version = ⟨σ', .ok (v, b), d⟩) :
    InstallM reg σ' name version = ⟨σ', .ok (v, true), 0⟩ := by
  unfold InstallM at h ⊢
  split at h
  · simp at h
  · rename_i rv heq
    split at h
    · rename_i hinst
      simp only [InstallOut.mk.injEq, Except.ok.injEq, Prod.mk.injEq] at h
      obtain ⟨hσ, ⟨hv, hb⟩, hd⟩ := h
      subst hσ
      subst hv
      rw [if_pos hinst]
    · rename_i hinst
      split at h
      · rename_i t hcache
        simp only [InstallOut.mk.injEq, Except.ok.injEq, Prod.mk.injEq] at h
        obtain ⟨hσ, ⟨hv, hb⟩, hd⟩ := h
        subst hσ
        subst hv
        by_cases hinst2 : isPackageInstalledM ({ σ with nodeModules := updateA σ.nodeModules name t } : Sys) name rv = true
        · rw [if_pos hinst2]
        · rw [if_neg hinst2]
          have hcache2 : lookupA ({ σ with nodeModules := updateA σ.nodeModules name t } : Sys).cache (name, rv) = some t := hcache
          simp only [hcache2]
          simp [updateA_idem]
      · rename_i hcache
        split at h
        · simp at h
        · rename_i t htb
          simp only [InstallOut.mk.injEq, Except.ok.injEq, Prod.mk.injEq] at h
          obtain ⟨hσ, ⟨hv, hb⟩, hd⟩ := h
          subst hσ
          subst hv
          by_cases hinst2 : isPackageInstalledM ({ nodeModules := updateA σ.nodeModules name t, cache := updateA σ.cache (name, rv) t } : Sys) name rv = true
          · rw [if_pos hinst2]
          · rw [if_neg hinst2]
            have hcache2 : lookupA ({ nodeModules := updateA σ.nodeModules name t, cache := updateA σ.cache (name, rv) t } : Sys).cache (name, rv) = some t :=
              lookupA_updateA_self σ.cache (name, rv) t
            simp only [hcache2]
            simp [updateA_idem]

/-- A one-package registry for exercising `Install`. -/
def regSample : Registry :=
  { meta := fun n => if n = "left-pad" then some ⟨["1.0.0"], [("latest", "1.0.0")]⟩ else none
    tarball := fun n v =>
      if n = "left-pad" && v = "1.0.0" then
        some { files := [("index.js", "module")], pkgJsonVersion := some "1.0.0" }
      else none }

/-- The state after a first, downloading install of `left-pad@1.0.0` from the
empty state. -/
def sysAfter : Sys :=
  { nodeModules := [("left-pad", { files := [("index.js", "module")], pkgJsonVersion := some "1.0.0" })]
    cache := [(("left-pad", "1.0.0"), { files := [("index.js", "module")], pkgJsonVersion := some "1.0.0" })] }

/-- Witness for C6: after the first (downloading) install of
`left-pad@1.0.0`, the second install is a hit, transfers nothing and leaves
the state untouched. -/
theorem C6_install_idempotent_witness :
    InstallM regSample sysAfter "left-pad" "1.0.0" = ⟨sysAfter, .ok ("1.0.0", true), 0⟩ :=
  C6_install_idempotent regSample ⟨[], []⟩ sysAfter "left-pad" "1.0.0" "1.0.0" false 1
    (by decide)

end Gpm
